import Mathlib

/-!
Verification of the merkle-dag library (a content-addressed Merkle DAG).

Shallow embedding of the repository's core:
  * `src/node.rs`    — `Node` and its constructor `Node::new`, the serde codec
                       helpers `coerce_const_generic_array` / `coerce_const_generic_set`;
  * `src/dag/mod.rs` — the `Merkle` DAG state (`roots`, `nodes`), `add_node`,
                       `compare`, `search_graph`, `find_next_non_descendant_nodes`;
  * `src/dag/iter.rs`— the `Missing` gap-fill iterator's `next_nodes`;
  * `src/store.rs`   — the `BTreeStore` reference store and `StoreError`;
  * `src/lib.rs`     — the older `DAG::add_node` variant (kept in the crate).

Hash digests and payloads are byte sequences, modelled as `List Nat`.  A hash
algorithm (`trait HashWriter`) is a streaming digest: its state after a series
of `record` calls is determined by the concatenation of all recorded bytes, so
we model an algorithm extensionally as a function `H : List Nat → List Nat`
from the recorded stream to the current digest.  Rust's `BTreeSet<Vec<u8>>` is
modelled as `Finset NodeId` (iteration in ascending lexicographic order is
`sortIds`, matching `BTreeSet`'s ordered iteration), and the
`BTreeMap` node store as a `List Node` keyed by `Node.id`, kept in insertion
order (the DAG never iterates the store, so only the keyed view matters; the
insertion order carries the rank structure used for termination proofs).

The Rust DFS loops (`search_graph`, `find_next_non_descendant_nodes`) are
`while` loops; they are embedded with an explicit fuel counter plus a `fuelOut`
outcome, and the top-level entry points pass the fuel `(N+1)^N` (for `N` stored
nodes) which is proved sufficient on every DAG reachable by `add_node`.  The
`panic!("Invalid DAG STATE encountered")` branch and the `.unwrap()` calls on
store fetches are embedded as an explicit `panicked` outcome.
-/

set_option maxHeartbeats 1000000

namespace MerkleDag

/-- A hash digest (`Vec<u8>` / `[u8; HASH_LEN]` in the source), as its byte
sequence. -/
abbrev NodeId := List Nat

/-- Computable lexicographic byte comparison (the `Ord` of Rust byte vectors:
shorter prefixes sort first), returning `true` when `a ≤ b`. -/
def idLe : NodeId → NodeId → Bool
  | [], _ => true
  | _ :: _, [] => false
  | a :: as, b :: bs =>
    if a < b then true
    else if a = b then idLe as bs
    else false

lemma idLe_lt_or_eq : ∀ a b : NodeId, idLe a b = true ↔ (a < b ∨ a = b) := by
  intro a b
  induction a generalizing b with
  | nil =>
    cases b with
    | nil => simp [idLe]
    | cons y ys => simp [idLe, List.nil_lt_cons]
  | cons x xs ih =>
    cases b with
    | nil =>
      rw [show idLe (x :: xs) [] = false from rfl]
      simp only [Bool.false_eq_true, false_iff]
      rintro (h | h)
      · exact List.Lex.not_nil_right _ _ h
      · exact List.cons_ne_nil x xs h
    | cons y ys =>
      rcases lt_trichotomy x y with hxy | heq | hyx
      · rw [show idLe (x :: xs) (y :: ys) = true from by simp [idLe, hxy]]
        simp only [true_iff]
        exact Or.inl (List.Lex.rel hxy)
      · subst heq
        rw [show idLe (x :: xs) (x :: ys) = idLe xs ys from by simp [idLe], ih ys]
        constructor
        · rintro (h | rfl)
          · exact Or.inl (List.Lex.cons h)
          · exact Or.inr rfl
        · rintro (h | h)
          · exact Or.inl ((List.Lex.cons_iff (r := (· < ·))).mp h)
          · injection h with h1 h2
            subst h2
            exact Or.inr rfl
      · have hxy : ¬ x < y := not_lt.mpr (le_of_lt hyx)
        have hne : ¬ x = y := ne_of_gt hyx
        rw [show idLe (x :: xs) (y :: ys) = false from by simp [idLe, hxy, hne]]
        simp only [Bool.false_eq_true, false_iff]
        rintro (h | h)
        · cases h with
          | cons h => exact hne rfl
          | rel h => exact hxy h
        · injection h with h1 h2
          exact hne h1

lemma idLe_iff (a b : NodeId) : idLe a b = true ↔ a ≤ b := by
  rw [idLe_lt_or_eq, ← le_iff_lt_or_eq]

/-- Kernel-reducible decidability for the lexicographic order on digests, so
that concrete DAG computations evaluate inside `decide` and `rfl` proofs. -/
instance (priority := 2000) decidableLeNodeId :
    DecidableRel ((· ≤ ·) : NodeId → NodeId → Prop) :=
  fun a b => decidable_of_decidable_of_iff (idLe_iff a b)

/-- Insert an id into a sorted list of ids, keeping it sorted. -/
def insertSorted (x : NodeId) : List NodeId → List NodeId
  | [] => [x]
  | y :: ys => if idLe x y then x :: y :: ys else y :: insertSorted x ys

/-- Insertion sort on id lists by ascending lexicographic byte order
(structurally recursive, so it evaluates inside the kernel). -/
def insSort : List NodeId → List NodeId
  | [] => []
  | x :: xs => insertSorted x (insSort xs)

lemma insertSorted_perm (x : NodeId) (l : List NodeId) :
    List.Perm (insertSorted x l) (x :: l) := by
  induction l with
  | nil => exact List.Perm.refl _
  | cons y ys ih =>
    by_cases h : idLe x y = true
    · rw [insertSorted, if_pos h]
    · rw [insertSorted, if_neg h]
      exact (ih.cons y).trans (List.Perm.swap x y ys)

lemma insSort_perm (l : List NodeId) : List.Perm (insSort l) l := by
  induction l with
  | nil => exact List.Perm.refl _
  | cons x xs ih => exact (insertSorted_perm x (insSort xs)).trans (ih.cons x)

lemma insertSorted_sorted {x : NodeId} {l : List NodeId}
    (h : List.Sorted (· ≤ ·) l) : List.Sorted (· ≤ ·) (insertSorted x l) := by
  induction l with
  | nil => simp [insertSorted]
  | cons y ys ih =>
    rw [List.sorted_cons] at h
    by_cases hxy : idLe x y = true
    · rw [insertSorted, if_pos hxy, List.sorted_cons]
      have hx : x ≤ y := (idLe_iff x y).mp hxy
      refine ⟨?_, List.sorted_cons.mpr h⟩
      intro b hb
      rcases List.mem_cons.mp hb with rfl | hb'
      · exact hx
      · exact le_trans hx (h.1 b hb')
    · rw [insertSorted, if_neg hxy, List.sorted_cons]
      have hyx : y ≤ x := le_of_not_le fun hle => hxy ((idLe_iff x y).mpr hle)
      refine ⟨?_, ih h.2⟩
      intro b hb
      rcases List.mem_cons.mp ((insertSorted_perm x ys).mem_iff.mp hb) with hbx | hb'
      · rw [hbx]; exact hyx
      · exact h.1 b hb'

lemma insSort_sorted (l : List NodeId) : List.Sorted (· ≤ ·) (insSort l) := by
  induction l with
  | nil => simp [insSort]
  | cons x xs ih => exact insertSorted_sorted ih

lemma insSort_eq_of_perm {l1 l2 : List NodeId} (h : List.Perm l1 l2) :
    insSort l1 = insSort l2 :=
  List.eq_of_perm_of_sorted ((insSort_perm l1).trans (h.trans (insSort_perm l2).symm))
    (insSort_sorted l1) (insSort_sorted l2)

/-- Ascending iteration over a `BTreeSet<Vec<u8>>`: the elements of the set in
ascending lexicographic byte order. -/
def sortIds (s : Finset NodeId) : List NodeId :=
  Quot.lift insSort (fun _ _ h => insSort_eq_of_perm h) s.val

lemma mem_sortIds {s : Finset NodeId} {x : NodeId} : x ∈ sortIds s ↔ x ∈ s := by
  rcases s with ⟨val, hnd⟩
  induction val using Quot.ind with
  | _ l =>
    show x ∈ insSort l ↔ _
    rw [(insSort_perm l).mem_iff]
    rfl

lemma sortIds_nodup (s : Finset NodeId) : (sortIds s).Nodup := by
  rcases s with ⟨val, hnd⟩
  induction val using Quot.ind with
  | _ l =>
    exact ((insSort_perm l).nodup_iff).mpr hnd

lemma length_sortIds (s : Finset NodeId) : (sortIds s).length = s.card := by
  rcases s with ⟨val, hnd⟩
  induction val using Quot.ind with
  | _ l =>
    exact (insSort_perm l).length_eq

lemma toFinset_sortIds (s : Finset NodeId) : (sortIds s).toFinset = s := by
  apply Finset.ext
  intro x
  rw [List.mem_toFinset, mem_sortIds]

/-- A streaming hash algorithm (`trait HashWriter`), modelled extensionally as
the function from the concatenation of all recorded bytes to the digest
`hash()` returns at that point. -/
abbrev HashWriter := List Nat → NodeId

/-- `Node` from `src/node.rs`: an immutable content-addressed record binding a
payload (`item`), a dependency-id set and the two derived digests. -/
structure Node where
  id : NodeId
  item : List Nat
  item_id : NodeId
  dependency_ids : Finset NodeId
  deriving DecidableEq

/-- `Node::new` (src/node.rs:199-224).  Records the item bytes, captures
`item_id`, then records each dependency id in ascending sorted order (the
`BTreeSet` iterates in ascending order and the explicit `sort()` of the
collected vector keeps that order) and captures `id` from the same stream. -/
def Node.new (H : HashWriter) (item : List Nat) (dependency_ids : Finset NodeId) : Node :=
  let item_id := H item
  let dependency_list := sortIds dependency_ids
  { id := H (dependency_list.foldl (fun acc d => acc ++ d) item)
    item := item
    item_id := item_id
    dependency_ids := dependency_ids }

/-- `StoreError` from `src/store.rs`. -/
inductive StoreError where
  | StoreFailure (description : String)
  | NoSuchDependents
  deriving DecidableEq

/-- Kernel-reducible decidable equality for `Except` results. -/
instance {ε α : Type} [DecidableEq ε] [DecidableEq α] : DecidableEq (Except ε α) :=
  fun a b =>
    match a, b with
    | .ok x, .ok y =>
      match decEq x y with
      | isTrue h => isTrue (congrArg Except.ok h)
      | isFalse h => isFalse fun he => h (Except.ok.inj he)
    | .ok _, .error _ => isFalse fun he => Except.noConfusion he
    | .error _, .ok _ => isFalse fun he => Except.noConfusion he
    | .error e, .error f =>
      match decEq e f with
      | isTrue h => isTrue (congrArg Except.error h)
      | isFalse h => isFalse fun he => h (Except.error.inj he)

/-- `BTreeStore` lookup (`BTreeMap::get`): the store keyed by `Node.id`,
modelled as the list of stored nodes. -/
def getNode (nodes : List Node) (id : NodeId) : Option Node :=
  nodes.find? fun n => decide (n.id = id)

/-- `BTreeStore` presence probe (`BTreeMap::contains_key`). -/
def containsNode (nodes : List Node) (id : NodeId) : Bool :=
  (getNode nodes id).isSome

/-- The `Merkle` DAG state (src/dag/mod.rs:51-59): the root frontier and the
node store. -/
structure Merkle where
  roots : Finset NodeId
  nodes : List Node
  deriving DecidableEq

/-- `Merkle::new` over an empty store (src/dag/mod.rs:67-73). -/
def Merkle.empty : Merkle := { roots := ∅, nodes := [] }

/-- The dependency-checking loop of `Merkle::add_node` (src/dag/mod.rs:98-108):
walks `dependency_ids` in `BTreeSet` iteration order, fails with
`NoSuchDependents` on the first missing dependency, and otherwise collects the
dependencies that are in `roots` into the scratch list `root_removals`. -/
def collectRootRemovals (nodes : List Node) (roots : Finset NodeId) :
    List NodeId → Except StoreError (List NodeId)
  | [] => .ok []
  | d :: rest =>
    if containsNode nodes d then
      match collectRootRemovals nodes roots rest with
      | .ok removals => .ok (if d ∈ roots then d :: removals else removals)
      | .error e => .error e
    else .error .NoSuchDependents

/-- `Merkle::add_node` (src/dag/mod.rs:81-115).  Builds the candidate node; if
its id is already stored, returns the stored node's id with no state change
(the `contains` guard and the `get(..).unwrap().unwrap()` fetch are fused into
one `getNode` match, which is exactly their combined meaning on the keyed
store); otherwise checks all dependencies, then stores the node, applies the
collected root removals and inserts the new id into `roots`. -/
def Merkle.add_node (H : HashWriter) (s : Merkle) (item : List Nat)
    (dependency_ids : Finset NodeId) : Except StoreError NodeId × Merkle :=
  let node := Node.new H item dependency_ids
  match getNode s.nodes node.id with
  | some stored => (.ok stored.id, s)
  | none =>
    match collectRootRemovals s.nodes s.roots (sortIds dependency_ids) with
    | .error e => (.error e, s)
    | .ok root_removals =>
      (.ok node.id,
        { nodes := s.nodes ++ [node]
          roots := insert node.id (root_removals.foldl Finset.erase s.roots) })

/-- `EdgeError` from `src/lib.rs`. -/
inductive EdgeError where
  | NoSuchDependents
  deriving DecidableEq

/-- The dependency loop of the older `DAG::add_node` (src/lib.rs:84-93): unlike
the `Merkle` version it removes each dependency from `roots` immediately while
still scanning, so a missing later dependency aborts after `roots` has already
been modified.  Returns the error, if any, together with the mutated roots. -/
def dagDepLoop (nodes : List Node) : List NodeId → Finset NodeId →
    Option EdgeError × Finset NodeId
  | [], roots => (none, roots)
  | d :: rest, roots =>
    if containsNode nodes d then
      dagDepLoop nodes rest (if d ∈ roots then roots.erase d else roots)
    else (some .NoSuchDependents, roots)

/-- `DAG::add_node` (src/lib.rs:73-97), the older in-crate variant: early
idempotent return, then the in-place dependency loop, then `roots.insert` and
`nodes.insert`. -/
def DAG.add_node (H : HashWriter) (s : Merkle) (item : List Nat)
    (dependency_ids : Finset NodeId) : Except EdgeError NodeId × Merkle :=
  let node := Node.new H item dependency_ids
  if containsNode s.nodes node.id then (.ok node.id, s)
  else
    match dagDepLoop s.nodes (sortIds dependency_ids) s.roots with
    | (some e, roots) => (.error e, { s with roots := roots })
    | (none, roots) =>
      (.ok node.id,
        { roots := insert node.id roots
          nodes := s.nodes ++ [node] })

/-- States reachable from the empty DAG by `Merkle::add_node` calls (failing
calls leave the state unchanged, so including them loses nothing). -/
inductive Reachable (H : HashWriter) : Merkle → Prop where
  | empty : Reachable H Merkle.empty
  | step (s : Merkle) (item : List Nat) (deps : Finset NodeId) :
      Reachable H s → Reachable H (Merkle.add_node H s item deps).2

/-! ### Basic lemmas about the keyed store view -/

lemma getNode_mem {nodes : List Node} {id : NodeId} {n : Node}
    (h : getNode nodes id = some n) : n ∈ nodes :=
  List.mem_of_find?_eq_some h

lemma getNode_id {nodes : List Node} {id : NodeId} {n : Node}
    (h : getNode nodes id = some n) : n.id = id := by
  have := List.find?_some h
  simpa using this

lemma containsNode_iff {nodes : List Node} {id : NodeId} :
    containsNode nodes id = true ↔ ∃ n ∈ nodes, n.id = id := by
  unfold containsNode getNode
  rw [List.find?_isSome]
  simp

lemma containsNode_of_mem {nodes : List Node} {n : Node} (h : n ∈ nodes) :
    containsNode nodes n.id = true :=
  containsNode_iff.mpr ⟨n, h, rfl⟩

lemma getNode_some_of_contains {nodes : List Node} {id : NodeId}
    (h : containsNode nodes id = true) : ∃ n, getNode nodes id = some n := by
  unfold containsNode at h
  exact Option.isSome_iff_exists.mp h

lemma getNode_eq_none_of_not_contains {nodes : List Node} {id : NodeId}
    (h : containsNode nodes id = false) : getNode nodes id = none := by
  unfold containsNode at h
  exact Option.not_isSome_iff_eq_none.mp (by simp [h])

lemma getNode_append (l1 l2 : List Node) (id : NodeId) :
    getNode (l1 ++ l2) id =
      match getNode l1 id with
      | some n => some n
      | none => getNode l2 id := by
  induction l1 with
  | nil => simp [getNode]
  | cons n rest ih =>
    by_cases h : n.id = id
    · simp [getNode, List.find?_cons, h]
    · simpa [getNode, List.find?_cons, h] using ih

lemma getNode_append_of_contains {l1 : List Node} (l2 : List Node) {id : NodeId}
    (h : containsNode l1 id = true) : getNode (l1 ++ l2) id = getNode l1 id := by
  obtain ⟨n, hn⟩ := getNode_some_of_contains h
  rw [getNode_append, hn]

lemma containsNode_append (l1 l2 : List Node) (id : NodeId) :
    containsNode (l1 ++ l2) id = (containsNode l1 id || containsNode l2 id) := by
  unfold containsNode
  rw [getNode_append]
  cases h : getNode l1 id <;> simp

lemma containsNode_append_left {l1 : List Node} (l2 : List Node) {id : NodeId}
    (h : containsNode l1 id = true) : containsNode (l1 ++ l2) id = true := by
  rw [containsNode_append, h, Bool.true_or]

/-- Uniqueness of stored nodes under a duplicate-free key list: two stored
nodes with the same id are the same node. -/
lemma mem_unique_of_nodup {nodes : List Node}
    (hnd : (nodes.map Node.id).Nodup) {m n : Node}
    (hm : m ∈ nodes) (hn : n ∈ nodes) (h : m.id = n.id) : m = n :=
  List.inj_on_of_nodup_map hnd hm hn h

/-! ### Insertion ranks

`rankOf nodes id` is the position of the first stored node whose id is `id`
(or `nodes.length` if absent).  On DAGs built by `add_node` a node's
dependencies always have strictly smaller rank; the DFS termination argument
rests on this. -/

def rankOf : List Node → NodeId → Nat
  | [], _ => 0
  | n :: rest, id => if n.id = id then 0 else rankOf rest id + 1

lemma rankOf_lt_length {nodes : List Node} {id : NodeId}
    (h : containsNode nodes id = true) : rankOf nodes id < nodes.length := by
  induction nodes with
  | nil => simp [containsNode, getNode] at h
  | cons n rest ih =>
    by_cases hid : n.id = id
    · simp [rankOf, hid]
    · have hrest : containsNode rest id = true := by
        rcases containsNode_iff.mp h with ⟨m, hm, hmid⟩
        rcases List.mem_cons.mp hm with rfl | hm'
        · exact absurd hmid hid
        · exact containsNode_iff.mpr ⟨m, hm', hmid⟩
      simpa [rankOf, hid] using Nat.succ_lt_succ (ih hrest)

lemma rankOf_append_of_contains {l1 : List Node} (l2 : List Node) {id : NodeId}
    (h : containsNode l1 id = true) : rankOf (l1 ++ l2) id = rankOf l1 id := by
  induction l1 with
  | nil => simp [containsNode, getNode] at h
  | cons n rest ih =>
    by_cases hid : n.id = id
    · simp [rankOf, hid]
    · have hrest : containsNode rest id = true := by
        rcases containsNode_iff.mp h with ⟨m, hm, hmid⟩
        rcases List.mem_cons.mp hm with rfl | hm'
        · exact absurd hmid hid
        · exact containsNode_iff.mpr ⟨m, hm', hmid⟩
      simp [rankOf, hid, ih hrest]

lemma rankOf_append_fresh {l1 : List Node} {n : Node}
    (h : containsNode l1 n.id = false) : rankOf (l1 ++ [n]) n.id = l1.length := by
  induction l1 with
  | nil => simp [rankOf]
  | cons m rest ih =>
    have hmid : ¬ m.id = n.id := by
      intro he
      have : containsNode (m :: rest) n.id = true := containsNode_iff.mpr ⟨m, by simp, he⟩
      rw [this] at h; cases h
    have hrest : containsNode rest n.id = false := by
      cases hr : containsNode rest n.id with
      | false => rfl
      | true =>
        rcases containsNode_iff.mp hr with ⟨m', hm', hmid'⟩
        have : containsNode (m :: rest) n.id = true :=
          containsNode_iff.mpr ⟨m', by simp [hm'], hmid'⟩
        rw [this] at h; cases h
    simp [rankOf, hmid, ih hrest]

/-- Weight of a stored id for the DFS termination measure. -/
def idWeight (nodes : List Node) (id : NodeId) : Nat :=
  (nodes.length + 1) ^ rankOf nodes id

/-- Termination measure of a DFS stack of fetched nodes. -/
def stackWeight (nodes : List Node) (stack : List Node) : Nat :=
  (stack.map fun n => idWeight nodes n.id).sum

/-- Termination measure of a DFS stack of ids. -/
def idListWeight (nodes : List Node) (stack : List NodeId) : Nat :=
  (stack.map (idWeight nodes)).sum

/-! ### The DAG invariant -/

/-- The state invariant maintained by `Merkle::add_node`: stored ids are
duplicate-free; stored nodes only depend on stored nodes (I2); dependencies
have strictly smaller insertion rank (acyclicity, I4); every root id is stored
(I1); a stored id is a root exactly when no stored node depends on it (I3);
and a non-empty store has a non-empty root frontier. -/
structure Inv (s : Merkle) : Prop where
  idsNodup : (s.nodes.map Node.id).Nodup
  closed : ∀ n ∈ s.nodes, ∀ d ∈ n.dependency_ids, containsNode s.nodes d = true
  ranked : ∀ n ∈ s.nodes, ∀ d ∈ n.dependency_ids, rankOf s.nodes d < rankOf s.nodes n.id
  rootsMem : ∀ r ∈ s.roots, containsNode s.nodes r = true
  rootsIff : ∀ id, containsNode s.nodes id = true →
      (id ∈ s.roots ↔ ∀ n ∈ s.nodes, id ∉ n.dependency_ids)
  rootsNe : s.nodes ≠ [] → s.roots.Nonempty

lemma collectRootRemovals_ok_contains {nodes : List Node} {roots : Finset NodeId}
    {l : List NodeId} {removals : List NodeId}
    (h : collectRootRemovals nodes roots l = .ok removals) :
    ∀ d ∈ l, containsNode nodes d = true := by
  induction l generalizing removals with
  | nil => simp
  | cons d rest ih =>
    intro x hx
    by_cases hc : containsNode nodes d = true
    · rcases List.mem_cons.mp hx with rfl | hx'
      · exact hc
      · cases hr : collectRootRemovals nodes roots rest with
        | ok removals' => exact ih hr x hx'
        | error e => rw [collectRootRemovals, if_pos hc, hr] at h; cases h
    · rw [collectRootRemovals, if_neg hc] at h; cases h

lemma collectRootRemovals_mem {nodes : List Node} {roots : Finset NodeId}
    {l : List NodeId} {removals : List NodeId}
    (h : collectRootRemovals nodes roots l = .ok removals) :
    ∀ x, x ∈ removals ↔ x ∈ l ∧ x ∈ roots := by
  induction l generalizing removals with
  | nil =>
    rw [collectRootRemovals] at h
    cases h
    simp
  | cons d rest ih =>
    intro x
    by_cases hc : containsNode nodes d = true
    · cases hr : collectRootRemovals nodes roots rest with
      | ok removals' =>
        rw [collectRootRemovals, if_pos hc, hr] at h
        cases h
        by_cases hd : d ∈ roots
        · simp only [if_pos hd, List.mem_cons, ih hr x]
          constructor
          · rintro (rfl | ⟨hx, hxr⟩)
            · exact ⟨by simp, hd⟩
            · exact ⟨by simp [hx], hxr⟩
          · rintro ⟨rfl | hx', hxr⟩
            · exact Or.inl rfl
            · exact Or.inr ⟨hx', hxr⟩
        · simp only [if_neg hd, ih hr x, List.mem_cons]
          constructor
          · rintro ⟨hx, hxr⟩
            exact ⟨Or.inr hx, hxr⟩
          · rintro ⟨rfl | hx', hxr⟩
            · exact absurd hxr hd
            · exact ⟨hx', hxr⟩
      | error e => rw [collectRootRemovals, if_pos hc, hr] at h; cases h
    · rw [collectRootRemovals, if_neg hc] at h; cases h

lemma collectRootRemovals_ok_of_contains {nodes : List Node} {roots : Finset NodeId}
    {l : List NodeId} (h : ∀ d ∈ l, containsNode nodes d = true) :
    ∃ removals, collectRootRemovals nodes roots l = .ok removals := by
  induction l with
  | nil => exact ⟨[], rfl⟩
  | cons d rest ih =>
    obtain ⟨removals', hr⟩ := ih fun x hx => h x (by simp [hx])
    refine ⟨if d ∈ roots then d :: removals' else removals', ?_⟩
    rw [collectRootRemovals, if_pos (h d (by simp)), hr]

lemma collectRootRemovals_error_of_missing {nodes : List Node} {roots : Finset NodeId}
    {l : List NodeId} {d : NodeId} (hd : d ∈ l) (h : containsNode nodes d = false) :
    collectRootRemovals nodes roots l = .error .NoSuchDependents := by
  induction l with
  | nil => cases hd
  | cons x rest ih =>
    by_cases hc : containsNode nodes x = true
    · have hd' : d ∈ rest := by
        rcases List.mem_cons.mp hd with rfl | hr
        · rw [hc] at h; cases h
        · exact hr
      rw [collectRootRemovals, if_pos hc, ih hd']
    · rw [collectRootRemovals, if_neg hc]

lemma mem_foldl_erase (l : List NodeId) (roots : Finset NodeId) (x : NodeId) :
    x ∈ l.foldl Finset.erase roots ↔ x ∈ roots ∧ x ∉ l := by
  induction l generalizing roots with
  | nil => simp
  | cons d rest ih =>
    simp only [List.foldl_cons, ih, Finset.mem_erase, List.mem_cons]
    constructor
    · rintro ⟨⟨hne, hr⟩, hrest⟩
      exact ⟨hr, by rintro (rfl | hc) <;> [exact hne rfl; exact hrest hc]⟩
    · rintro ⟨hr, hn⟩
      exact ⟨⟨fun he => hn (Or.inl he), hr⟩, fun hc => hn (Or.inr hc)⟩

/-! ### Unfolding lemmas for `Merkle.add_node` -/

lemma add_node_of_contains {H : HashWriter} {s : Merkle} {item : List Nat}
    {deps : Finset NodeId} {stored : Node}
    (h : getNode s.nodes (Node.new H item deps).id = some stored) :
    Merkle.add_node H s item deps = (.ok stored.id, s) := by
  unfold Merkle.add_node
  simp only [h]

lemma add_node_of_error {H : HashWriter} {s : Merkle} {item : List Nat}
    {deps : Finset NodeId} {e : StoreError}
    (h : getNode s.nodes (Node.new H item deps).id = none)
    (hc : collectRootRemovals s.nodes s.roots (sortIds deps) = .error e) :
    Merkle.add_node H s item deps = (.error e, s) := by
  unfold Merkle.add_node
  simp only [h, hc]

lemma add_node_of_success {H : HashWriter} {s : Merkle} {item : List Nat}
    {deps : Finset NodeId} {removals : List NodeId}
    (h : getNode s.nodes (Node.new H item deps).id = none)
    (hc : collectRootRemovals s.nodes s.roots (sortIds deps) = .ok removals) :
    Merkle.add_node H s item deps =
      (.ok (Node.new H item deps).id,
        { nodes := s.nodes ++ [Node.new H item deps]
          roots := insert (Node.new H item deps).id
                     (removals.foldl Finset.erase s.roots) }) := by
  unfold Merkle.add_node
  simp only [h, hc]

lemma containsNode_singleton (n : Node) (id : NodeId) :
    containsNode [n] id = decide (n.id = id) := by
  by_cases h : n.id = id <;> simp [containsNode, getNode, List.find?, h]

lemma not_mem_ids_of_not_contains {nodes : List Node} {id : NodeId}
    (h : containsNode nodes id = false) : id ∉ nodes.map Node.id := by
  intro hmem
  rcases List.mem_map.mp hmem with ⟨n, hn, hnid⟩
  rw [containsNode_iff.mpr ⟨n, hn, hnid⟩] at h
  cases h

lemma inv_empty : Inv Merkle.empty := by
  constructor <;> simp [Merkle.empty, containsNode, getNode]

lemma inv_step (H : HashWriter) {s : Merkle} (hInv : Inv s) (item : List Nat)
    (deps : Finset NodeId) : Inv (Merkle.add_node H s item deps).2 := by
  cases hget : getNode s.nodes (Node.new H item deps).id with
  | some stored => rw [add_node_of_contains hget]; exact hInv
  | none =>
    cases hcol : collectRootRemovals s.nodes s.roots (sortIds deps) with
    | error e => rw [add_node_of_error hget hcol]; exact hInv
    | ok removals =>
      rw [add_node_of_success hget hcol]
      set node := Node.new H item deps with hnode
      have fresh : containsNode s.nodes node.id = false := by
        unfold containsNode
        rw [hget]
        rfl
      have hdeps : ∀ d ∈ deps, containsNode s.nodes d = true := fun d hd =>
        collectRootRemovals_ok_contains hcol d (mem_sortIds.mpr hd)
      have hdepsEq : node.dependency_ids = deps := rfl
      have hcontains : ∀ x, containsNode (s.nodes ++ [node]) x = true ↔
          (containsNode s.nodes x = true ∨ x = node.id) := by
        intro x
        rw [containsNode_append, containsNode_singleton]
        constructor
        · intro hx
          rcases Bool.or_eq_true_iff.mp hx with hx | hx
          · exact Or.inl hx
          · exact Or.inr (of_decide_eq_true hx).symm
        · rintro (hx | rfl)
          · exact Bool.or_eq_true_iff.mpr (Or.inl hx)
          · exact Bool.or_eq_true_iff.mpr (Or.inr (by simp))
      have hroots : ∀ x, x ∈ insert node.id (removals.foldl Finset.erase s.roots) ↔
          (x = node.id ∨ (x ∈ s.roots ∧ x ∉ deps)) := by
        intro x
        rw [Finset.mem_insert, mem_foldl_erase]
        constructor
        · rintro (rfl | ⟨hr, hnr⟩)
          · exact Or.inl rfl
          · refine Or.inr ⟨hr, fun hd => hnr ?_⟩
            exact (collectRootRemovals_mem hcol x).mpr
              ⟨mem_sortIds.mpr hd, hr⟩
        · rintro (rfl | ⟨hr, hnd⟩)
          · exact Or.inl rfl
          · refine Or.inr ⟨hr, fun hrem => ?_⟩
            rcases (collectRootRemovals_mem hcol x).mp hrem with ⟨hsort, _⟩
            exact hnd (mem_sortIds.mp hsort)
      constructor
      · -- idsNodup
        rw [List.map_append]
        rw [List.nodup_append]
        refine ⟨hInv.idsNodup, by simp, ?_⟩
        intro x hx hx'
        simp only [List.map_cons, List.map_nil, List.mem_singleton] at hx'
        subst hx'
        exact not_mem_ids_of_not_contains fresh hx
      · -- closed
        intro n hn d hd
        rcases List.mem_append.mp hn with hn | hn
        · exact containsNode_append_left _ (hInv.closed n hn d hd)
        · have : n = node := by simpa using hn
          subst this
          exact containsNode_append_left _ (hdeps d (by rwa [hdepsEq] at hd))
      · -- ranked
        intro n hn d hd
        rcases List.mem_append.mp hn with hn | hn
        · rw [rankOf_append_of_contains _ (hInv.closed n hn d hd),
            rankOf_append_of_contains _ (containsNode_of_mem hn)]
          exact hInv.ranked n hn d hd
        · have : n = node := by simpa using hn
          subst this
          have hdc : containsNode s.nodes d = true := hdeps d (by rwa [hdepsEq] at hd)
          rw [rankOf_append_of_contains _ hdc, rankOf_append_fresh fresh]
          exact rankOf_lt_length hdc
      · -- rootsMem
        intro r hr
        rcases (hroots r).mp hr with rfl | ⟨hr', _⟩
        · exact (hcontains _).mpr (Or.inr rfl)
        · exact (hcontains _).mpr (Or.inl (hInv.rootsMem r hr'))
      · -- rootsIff
        intro id hid
        rcases (hcontains id).mp hid with hid' | rfl
        · by_cases hne : id = node.id
          · subst hne
            rw [hid'] at fresh
            cases fresh
          · rw [hroots id]
            constructor
            · rintro (rfl | ⟨hr, hnd⟩)
              · exact absurd rfl hne
              · intro n hn
                rcases List.mem_append.mp hn with hn | hn
                · exact (hInv.rootsIff id hid').mp hr n hn
                · have : n = node := by simpa using hn
                  subst this
                  rwa [hdepsEq]
            · intro hall
              refine Or.inr ⟨(hInv.rootsIff id hid').mpr fun n hn =>
                hall n (List.mem_append.mpr (Or.inl hn)), ?_⟩
              have := hall node (List.mem_append.mpr (Or.inr (by simp)))
              rwa [hdepsEq] at this
        · rw [hroots node.id]
          constructor
          · intro _ n hn
            rcases List.mem_append.mp hn with hn | hn
            · intro hd
              rw [hInv.closed n hn node.id hd] at fresh
              cases fresh
            · have : n = node := by simpa using hn
              subst this
              rw [hdepsEq]
              intro hd
              rw [hdeps node.id hd] at fresh
              cases fresh
          · intro _
            exact Or.inl rfl
      · -- rootsNe
        intro _
        exact ⟨node.id, (hroots node.id).mpr (Or.inl rfl)⟩

lemma inv_of_reachable {H : HashWriter} {s : Merkle} (h : Reachable H s) : Inv s := by
  induction h with
  | empty => exact inv_empty
  | step s item deps _ ih => exact inv_step H ih item deps

lemma getNode_singleton (n : Node) : getNode [n] n.id = some n := by
  simp [getNode, List.find?]

/-! ### A concrete hash algorithm for witnesses

A trivial streaming digest (prepend a marker byte to the recorded stream),
playing the role of the "trivial streaming hash" the spec suggests for
end-to-end scenarios.  Any `HashWriter` works for the general theorems; the
witnesses need a computable concrete one. -/

def consHash : HashWriter := fun stream => 0 :: stream

/-- A DAG with a single leaf (payload `[5]`, id `[0, 5]`), built by `add_node`. -/
def sLeaf : Merkle := (Merkle.add_node consHash Merkle.empty [5] ∅).2

/-- The two-node chain DAG: leaf `A` (payload `[5]`, id `[0, 5]`) and `B`
(payload `[9]`, id `[0, 9, 0, 5]`) depending on `A`, built by `add_node`. -/
def sChain : Merkle := (Merkle.add_node consHash sLeaf [9] {[0, 5]}).2

lemma sChain_reachable : Reachable consHash sChain :=
  Reachable.step sLeaf [9] {[0, 5]}
    (Reachable.step Merkle.empty [5] ∅ Reachable.empty)

/-- A DAG with a single leaf built by the older `DAG::add_node` of src/lib.rs
(payload `[5]`, id `[0, 5]`; `roots = {[0, 5]}`). -/
def sDagLeaf : Merkle := (DAG.add_node consHash Merkle.empty [5] ∅).2

/-- A DAG with a single leaf whose payload `[1, 2]` will be used to exhibit a
stream-concatenation collision (its id is `[0, 1, 2]`). -/
def sLeafB : Merkle := (Merkle.add_node consHash Merkle.empty [1, 2] ∅).2

/-! ### Claim C1 — node construction is deterministic and order-insensitive -/

/-- **C1**: for every payload `p` and every two enumerations of the same
dependency-id set (lists that are permutations of each other, as fed into the
`BTreeSet` the constructor receives), the constructed nodes have equal `id`
and equal `item_id`.  Determinism for equal inputs is the special case of the
identity permutation, `Node.new` being a function of its inputs. -/
theorem node_new_deterministic_order_insensitive (H : HashWriter) (p : List Nat)
    (l1 l2 : List NodeId) (h : List.Perm l1 l2) :
    (Node.new H p l1.toFinset).id = (Node.new H p l2.toFinset).id ∧
    (Node.new H p l1.toFinset).item_id = (Node.new H p l2.toFinset).item_id := by
  rw [List.toFinset_eq_of_perm _ _ h]
  exact ⟨rfl, rfl⟩

/-- Witness for C1 at the concrete payload `[1]` and the dependency set
`{[2], [3]}` enumerated in its two orders. -/
theorem node_new_deterministic_order_insensitive_witness :
    (Node.new consHash [1] [[2], [3]].toFinset).id =
      (Node.new consHash [1] [[3], [2]].toFinset).id ∧
    (Node.new consHash [1] [[2], [3]].toFinset).item_id =
      (Node.new consHash [1] [[3], [2]].toFinset).item_id :=
  node_new_deterministic_order_insensitive consHash [1] [[2], [3]] [[3], [2]]
    (List.Perm.swap [3] [2] [])

/-! ### Claim C2 — the root-frontier invariant -/

/-- **C2**: on every DAG reachable from the empty DAG by `add_node` calls,
every root id is stored, no root id occurs in the dependency ids of any stored
node, and (the `iff` form) a stored id is a root exactly when no stored node
depends on it. -/
theorem roots_frontier_invariant {H : HashWriter} {s : Merkle} (h : Reachable H s) :
    (∀ r ∈ s.roots, containsNode s.nodes r = true) ∧
    (∀ r ∈ s.roots, ∀ n ∈ s.nodes, r ∉ n.dependency_ids) ∧
    (∀ id, containsNode s.nodes id = true →
      (id ∈ s.roots ↔ ∀ n ∈ s.nodes, id ∉ n.dependency_ids)) := by
  have hInv := inv_of_reachable h
  exact ⟨hInv.rootsMem,
    fun r hr n hn => (hInv.rootsIff r (hInv.rootsMem r hr)).mp hr n hn,
    hInv.rootsIff⟩

/-- Witness for C2 on the concrete two-node chain DAG. -/
theorem roots_frontier_invariant_witness :
    (∀ r ∈ sChain.roots, containsNode sChain.nodes r = true) ∧
    (∀ r ∈ sChain.roots, ∀ n ∈ sChain.nodes, r ∉ n.dependency_ids) ∧
    (∀ id, containsNode sChain.nodes id = true →
      (id ∈ sChain.roots ↔ ∀ n ∈ sChain.nodes, id ∉ n.dependency_ids)) :=
  roots_frontier_invariant sChain_reachable

/-! ### Claim C4 — `add_node` is idempotent by content -/

/-- **C4**: if an `add_node` call with inputs `(item, deps)` succeeded and
returned id `i`, calling `add_node` again with the same inputs returns the
same id `i` and leaves the whole state — node store and roots — exactly
unchanged. -/
theorem add_node_idempotent {H : HashWriter} {s : Merkle} {item : List Nat}
    {deps : Finset NodeId} {i : NodeId}
    (h : (Merkle.add_node H s item deps).1 = .ok i) :
    Merkle.add_node H (Merkle.add_node H s item deps).2 item deps =
      (.ok i, (Merkle.add_node H s item deps).2) := by
  cases hget : getNode s.nodes (Node.new H item deps).id with
  | some stored =>
    rw [add_node_of_contains hget] at h ⊢
    have h' : Except.ok (ε := StoreError) stored.id = Except.ok i := h
    obtain rfl : stored.id = i := Except.ok.inj h'
    show Merkle.add_node H s item deps = (.ok stored.id, s)
    exact add_node_of_contains hget
  | none =>
    cases hcol : collectRootRemovals s.nodes s.roots (sortIds deps) with
    | error e =>
      rw [add_node_of_error hget hcol] at h
      exact absurd h (by simp)
    | ok removals =>
      rw [add_node_of_success hget hcol] at h ⊢
      have h' : Except.ok (ε := StoreError) (Node.new H item deps).id = Except.ok i := h
      obtain rfl : (Node.new H item deps).id = i := Except.ok.inj h'
      have hget2 : getNode (s.nodes ++ [Node.new H item deps]) (Node.new H item deps).id
          = some (Node.new H item deps) := by
        rw [getNode_append, hget]
        exact getNode_singleton _
      exact add_node_of_contains hget2

/-- Witness for C4: re-adding the leaf `[5]` to the one-leaf DAG returns the
same id `[0, 5]` and the same state. -/
theorem add_node_idempotent_witness :
    Merkle.add_node consHash (Merkle.add_node consHash Merkle.empty [5] ∅).2 [5] ∅ =
      (.ok [0, 5], (Merkle.add_node consHash Merkle.empty [5] ∅).2) :=
  add_node_idempotent (by decide)

/-! ### Claim C5 — missing-dependency atomicity

The claim as stated fails on the code, in two ways.

First, the older `DAG::add_node` in src/lib.rs removes each dependency from
`roots` inside the same scan that detects a missing dependency, so a call that
fails with `NoSuchDependents` can leave `roots` modified: with one stored leaf
`[0, 5]` (a root) and the dependency set `{[0, 5], [7]}`, the scan first
removes `[0, 5]` from `roots` and only then fails on the absent `[7]`.

Second, even `Merkle::add_node` in src/dag/mod.rs does not always fail when a
dependency is missing: the idempotent early return fires first.  `Node::new`
hashes the plain concatenation of the payload and the sorted dependency ids,
so payload `[1, 2]` with no dependencies and payload `[]` with dependency set
`{[1, 2]}` produce the identical byte stream, hence the identical id, under
every hash algorithm.  After storing the former, `add_node([], {[1, 2]})`
returns `Ok` although its dependency `[1, 2]` is absent from the store. -/

/-- **C5 counterexample**: (a) `DAG::add_node` (src/lib.rs) fails with
`NoSuchDependents` yet has already removed the root `[0, 5]` — the roots set
is modified by a failing call; and (b) `Merkle::add_node` (src/dag/mod.rs),
called with the dependency `[1, 2]` absent from the store, does not fail at
all: it returns `Ok [0, 1, 2]` through the idempotent early return, because
the candidate node's id collides with the stored leaf's id. -/
theorem add_node_missing_dep_atomic_counterexample :
    ((DAG.add_node consHash sDagLeaf [9] {[0, 5], [7]}).1 = .error .NoSuchDependents ∧
      (DAG.add_node consHash sDagLeaf [9] {[0, 5], [7]}).2.roots ≠ sDagLeaf.roots) ∧
    (containsNode sLeafB.nodes [1, 2] = false ∧
      (Merkle.add_node consHash sLeafB [] {[1, 2]}).1 = .ok [0, 1, 2]) := by
  refine ⟨⟨by decide, fun h => ?_⟩, by decide, by decide⟩
  exact absurd (congrArg sortIds h) (by decide)

/-- **C5 amended**: for `Merkle::add_node` (src/dag/mod.rs), whenever some
dependency id is missing from the store *and* the candidate node's id is not
already stored (so the idempotent early return does not fire), the call fails
with `NoSuchDependents` and the state — node store and roots alike — is
returned exactly unchanged.  (The src/lib.rs `DAG::add_node` variant does not
satisfy this: it may shrink `roots` before failing, as the counterexample
shows.) -/
theorem add_node_missing_dep_atomic {H : HashWriter} {s : Merkle} {item : List Nat}
    {deps : Finset NodeId}
    (hfresh : containsNode s.nodes (Node.new H item deps).id = false)
    (hmiss : ∃ d ∈ deps, containsNode s.nodes d = false) :
    Merkle.add_node H s item deps = (.error .NoSuchDependents, s) := by
  obtain ⟨d, hd, hdc⟩ := hmiss
  exact add_node_of_error (getNode_eq_none_of_not_contains hfresh)
    (collectRootRemovals_error_of_missing (mem_sortIds.mpr hd) hdc)

/-- Witness for the amended C5: adding `[3]` with the absent dependency `[7]`
to the one-leaf DAG fails with `NoSuchDependents` and changes nothing. -/
theorem add_node_missing_dep_atomic_witness :
    Merkle.add_node consHash sLeaf [3] {[7]} = (.error .NoSuchDependents, sLeaf) :=
  add_node_missing_dep_atomic (by decide) ⟨[7], by decide, by decide⟩

/-! ### The `search_graph` DFS

`Merkle::search_graph` (src/dag/mod.rs:201-226) is a depth-first search from
`root_id` along dependency edges, returning true on the first dependency equal
to `search_id` and panicking (`Invalid DAG STATE encountered`) if a dependency
id cannot be fetched.  The `while` loop is embedded with fuel; `searchFuel`
is proved sufficient on every invariant-satisfying DAG. -/

/-- Outcome of the `search_graph` DFS: `Ok(true)`, `Ok(false)`, the
`panic!("Invalid DAG STATE encountered")` branch, or fuel exhaustion (an
artifact of the embedding, proved unreachable at the chosen fuel). -/
inductive SearchResult where
  | found
  | notFound
  | panicked
  | fuelOut
  deriving DecidableEq

/-- The inner `for dep in deps` loop of `search_graph` (src/dag/mod.rs:215-223):
walks the dependency ids in ascending order; returns early with `found` when a
dependency equals `search_id`, pushes the fetched dependency node otherwise,
and panics when the fetch comes back empty. -/
def pushDeps (nodes : List Node) (search_id : NodeId) :
    List NodeId → List Node → Except SearchResult (List Node)
  | [], stack => .ok stack
  | dep :: rest, stack =>
    if search_id = dep then .error .found
    else
      match getNode nodes dep with
      | some n => pushDeps nodes search_id rest (n :: stack)
      | none => .error .panicked

/-- The `while !stack.is_empty()` loop of `search_graph`
(src/dag/mod.rs:212-224), with explicit fuel. -/
def searchLoop (nodes : List Node) (search_id : NodeId) :
    Nat → List Node → SearchResult
  | _, [] => .notFound
  | 0, _ :: _ => .fuelOut
  | fuel + 1, node :: stack =>
    match pushDeps nodes search_id (sortIds node.dependency_ids) stack with
    | .error r => r
    | .ok stack2 => searchLoop nodes search_id fuel stack2

/-- Fuel sufficient for the DFS loops on a store of `N` nodes: `(N+1)^N`. -/
def searchFuel (nodes : List Node) : Nat :=
  (nodes.length + 1) ^ nodes.length

/-- `Merkle::search_graph` (src/dag/mod.rs:201-226). -/
def Merkle.search_graph (s : Merkle) (root_id search_id : NodeId) : SearchResult :=
  if root_id = search_id then .found
  else
    match getNode s.nodes root_id with
    | none => .notFound
    | some root_node => searchLoop s.nodes search_id (searchFuel s.nodes) [root_node]

/-- `NodeCompare` from src/dag/mod.rs:31-37. -/
inductive NodeCompare where
  | After
  | Before
  | Equivalent
  | Uncomparable
  deriving DecidableEq

/-- Result of `Merkle::compare`: a `NodeCompare`, or the propagated fatal
outcomes of the underlying graph search. -/
inductive CompareResult where
  | ok (c : NodeCompare)
  | panicked
  | fuelOut
  deriving DecidableEq

/-- `Merkle::compare` (src/dag/mod.rs:142-156). -/
def Merkle.compare (s : Merkle) (left right : NodeId) : CompareResult :=
  if left = right then .ok .Equivalent
  else
    match Merkle.search_graph s right left with
    | .found => .ok .Before
    | .panicked => .panicked
    | .fuelOut => .fuelOut
    | .notFound =>
      match Merkle.search_graph s left right with
      | .found => .ok .After
      | .panicked => .panicked
      | .fuelOut => .fuelOut
      | .notFound => .ok .Uncomparable

/-- One dependency edge of the stored graph: the stored node with id `x`
declares `d` among its dependency ids. -/
def DepEdge (nodes : List Node) (x d : NodeId) : Prop :=
  ∃ n ∈ nodes, n.id = x ∧ d ∈ n.dependency_ids

/-- `Reaches nodes x y`: `y` is an ancestor of `x`, i.e. reachable from `x`
by one or more dependency edges. -/
def Reaches (nodes : List Node) (x y : NodeId) : Prop :=
  Relation.TransGen (DepEdge nodes) x y

lemma pushDeps_found {nodes : List Node} {t : NodeId} {deps : List NodeId}
    {stack : List Node}
    (hres : ∀ d ∈ deps, containsNode nodes d = true) (ht : t ∈ deps) :
    pushDeps nodes t deps stack = .error .found := by
  induction deps generalizing stack with
  | nil => cases ht
  | cons d rest ih =>
    by_cases hd : t = d
    · rw [pushDeps, if_pos hd]
    · rw [pushDeps, if_neg hd]
      obtain ⟨n, hn⟩ := getNode_some_of_contains (hres d (by simp))
      rw [hn]
      refine ih (fun x hx => hres x (by simp [hx])) ?_
      rcases List.mem_cons.mp ht with rfl | h
      · exact absurd rfl hd
      · exact h

lemma pushDeps_ok {nodes : List Node} {t : NodeId} {deps : List NodeId}
    {stack : List Node}
    (hres : ∀ d ∈ deps, containsNode nodes d = true) (ht : t ∉ deps) :
    ∃ stack2, pushDeps nodes t deps stack = .ok stack2 ∧
      List.Perm stack2 (deps.filterMap (getNode nodes) ++ stack) := by
  induction deps generalizing stack with
  | nil => exact ⟨stack, rfl, by simp⟩
  | cons d rest ih =>
    have hd : ¬ t = d := fun he => ht (by simp [he])
    obtain ⟨n, hn⟩ := getNode_some_of_contains (hres d (by simp))
    obtain ⟨stack2, hrun, hperm⟩ :=
      @ih (n :: stack) (fun x hx => hres x (by simp [hx]))
        (fun hx => ht (by simp [hx]))
    refine ⟨stack2, ?_, ?_⟩
    · rw [pushDeps, if_neg hd, hn]
      exact hrun
    · refine hperm.trans ?_
      rw [List.filterMap_cons, hn]
      exact List.perm_middle

lemma filterMap_getNode_weights {nodes : List Node} {deps : List NodeId}
    (hres : ∀ d ∈ deps, containsNode nodes d = true) :
    (deps.filterMap (getNode nodes)).map (fun m => idWeight nodes m.id) =
      deps.map (idWeight nodes) := by
  induction deps with
  | nil => rfl
  | cons d rest ih =>
    obtain ⟨n, hn⟩ := getNode_some_of_contains (hres d (by simp))
    rw [List.filterMap_cons, hn, List.map_cons, List.map_cons, getNode_id hn,
      ih fun x hx => hres x (by simp [hx])]

/-- The combined weight of a node's dependency frontier is strictly below the
node's own weight: the heart of the DFS termination argument. -/
lemma depsWeight_lt {nodes : List Node} {n : Node} (_hn : n ∈ nodes)
    (hcl : ∀ d ∈ n.dependency_ids, containsNode nodes d = true)
    (hrk : ∀ d ∈ n.dependency_ids, rankOf nodes d < rankOf nodes n.id) :
    idListWeight nodes (sortIds n.dependency_ids) < idWeight nodes n.id := by
  by_cases hne : sortIds n.dependency_ids = []
  · rw [hne]
    show 0 < idWeight nodes n.id
    exact pow_pos (Nat.succ_pos _) _
  · obtain ⟨d0, hd0⟩ := List.exists_mem_of_ne_nil _ hne
    have hr1 : 1 ≤ rankOf nodes n.id := by
      have := hrk d0 (mem_sortIds.mp hd0)
      omega
    have hbound : ∀ x ∈ (sortIds n.dependency_ids).map (idWeight nodes),
        x ≤ (nodes.length + 1) ^ (rankOf nodes n.id - 1) := by
      intro x hx
      rcases List.mem_map.mp hx with ⟨d, hd, rfl⟩
      have hlt := hrk d (mem_sortIds.mp hd)
      exact Nat.pow_le_pow_right (Nat.succ_pos _) (by omega)
    have hsum := List.sum_le_card_nsmul _ _ hbound
    rw [List.length_map] at hsum
    have hlen : (sortIds n.dependency_ids).length ≤ nodes.length := by
      have hsub : sortIds n.dependency_ids ⊆ nodes.map Node.id := by
        intro d hd
        rcases containsNode_iff.mp (hcl d (mem_sortIds.mp hd)) with ⟨m, hm, hmid⟩
        exact List.mem_map.mpr ⟨m, hm, hmid⟩
      simpa using ((sortIds_nodup _).subperm hsub).length_le
    have hpow : 0 < (nodes.length + 1) ^ (rankOf nodes n.id - 1) :=
      pow_pos (Nat.succ_pos _) _
    calc idListWeight nodes (sortIds n.dependency_ids)
        ≤ (sortIds n.dependency_ids).length •
            (nodes.length + 1) ^ (rankOf nodes n.id - 1) := hsum
      _ = (sortIds n.dependency_ids).length *
            (nodes.length + 1) ^ (rankOf nodes n.id - 1) := by
            rw [smul_eq_mul]
      _ ≤ nodes.length * (nodes.length + 1) ^ (rankOf nodes n.id - 1) :=
            Nat.mul_le_mul_right _ hlen
      _ < (nodes.length + 1) * (nodes.length + 1) ^ (rankOf nodes n.id - 1) :=
            Nat.mul_lt_mul_of_lt_of_le (Nat.lt_succ_self _) (le_refl _) hpow
      _ = (nodes.length + 1) ^ (rankOf nodes n.id - 1 + 1) := (pow_succ' _ _).symm
      _ = (nodes.length + 1) ^ rankOf nodes n.id := by
            rw [Nat.sub_add_cancel hr1]

/-- Main correctness and termination lemma for the `search_graph` loop: with
fuel at least the stack weight, on an invariant-satisfying store the loop
returns `found` or `notFound` (never `panicked` or `fuelOut`), and returns
`found` exactly when the target is an ancestor of some stack node. -/
lemma searchLoop_spec {nodes : List Node} {t : NodeId}
    (hnd : (nodes.map Node.id).Nodup)
    (hcl : ∀ n ∈ nodes, ∀ d ∈ n.dependency_ids, containsNode nodes d = true)
    (hrk : ∀ n ∈ nodes, ∀ d ∈ n.dependency_ids, rankOf nodes d < rankOf nodes n.id) :
    ∀ fuel stack, (∀ n ∈ stack, n ∈ nodes) → stackWeight nodes stack ≤ fuel →
      (searchLoop nodes t fuel stack = .found ∨
        searchLoop nodes t fuel stack = .notFound) ∧
      (searchLoop nodes t fuel stack = .found ↔
        ∃ n ∈ stack, Reaches nodes n.id t) := by
  intro fuel
  induction fuel with
  | zero =>
    intro stack hmem hw
    cases stack with
    | nil => simp [searchLoop, Reaches]
    | cons n rest =>
      exfalso
      have hpos : 0 < idWeight nodes n.id := pow_pos (Nat.succ_pos _) _
      have : 0 < stackWeight nodes (n :: rest) := by
        rw [stackWeight, List.map_cons, List.sum_cons]
        omega
      omega
  | succ fuel ih =>
    intro stack hmem hw
    cases stack with
    | nil => simp [searchLoop, Reaches]
    | cons node rest =>
      have hnode := hmem node (by simp)
      have hres : ∀ d ∈ sortIds node.dependency_ids, containsNode nodes d = true :=
        fun d hd => hcl node hnode d (mem_sortIds.mp hd)
      by_cases ht : t ∈ sortIds node.dependency_ids
      · rw [searchLoop, pushDeps_found hres ht]
        refine ⟨Or.inl rfl, ⟨fun _ => ⟨node, by simp, ?_⟩, fun _ => rfl⟩⟩
        exact Relation.TransGen.single ⟨node, hnode, rfl, mem_sortIds.mp ht⟩
      · obtain ⟨stack2, hrun, hperm⟩ := pushDeps_ok hres ht
        rw [searchLoop, hrun]
        have hmem2 : ∀ m ∈ stack2, m ∈ nodes := by
          intro m hm
          rcases List.mem_append.mp (hperm.mem_iff.mp hm) with hm' | hm'
          · rcases List.mem_filterMap.mp hm' with ⟨d, _, hget⟩
            exact getNode_mem hget
          · exact hmem m (by simp [hm'])
        have hw2 : stackWeight nodes stack2 ≤ fuel := by
          have e1 : stackWeight nodes stack2 =
              idListWeight nodes (sortIds node.dependency_ids) +
                stackWeight nodes rest := by
            rw [stackWeight, (hperm.map fun m => idWeight nodes m.id).sum_eq,
              List.map_append, List.sum_append, filterMap_getNode_weights hres]
            rfl
          have e2 : idListWeight nodes (sortIds node.dependency_ids) <
              idWeight nodes node.id :=
            depsWeight_lt hnode (hcl node hnode) (hrk node hnode)
          have e3 : stackWeight nodes (node :: rest) =
              idWeight nodes node.id + stackWeight nodes rest := by
            rw [stackWeight, List.map_cons, List.sum_cons]
            rfl
          rw [e3] at hw
          omega
        obtain ⟨hor, hiff⟩ := ih stack2 hmem2 hw2
        refine ⟨hor, hiff.trans ?_⟩
        constructor
        · rintro ⟨m, hm, hreach⟩
          rcases List.mem_append.mp (hperm.mem_iff.mp hm) with hm' | hm'
          · rcases List.mem_filterMap.mp hm' with ⟨d, hd, hget⟩
            refine ⟨node, by simp, ?_⟩
            have hedge : DepEdge nodes node.id d :=
              ⟨node, hnode, rfl, mem_sortIds.mp hd⟩
            have hmd : m.id = d := getNode_id hget
            exact Relation.TransGen.head hedge (hmd ▸ hreach)
          · exact ⟨m, by simp [hm'], hreach⟩
        · rintro ⟨m, hm, hreach⟩
          rcases List.mem_cons.mp hm with rfl | hm'
          · rcases Relation.TransGen.head'_iff.mp hreach with ⟨b, hedge, hrtg⟩
            rcases hedge with ⟨n', hn', hid, hb⟩
            have hn'eq : n' = m := mem_unique_of_nodup hnd hn' hnode hid
            subst hn'eq
            have hbdep : b ∈ sortIds n'.dependency_ids := mem_sortIds.mpr hb
            obtain ⟨nb, hnb⟩ := getNode_some_of_contains (hres b hbdep)
            refine ⟨nb, ?_, ?_⟩
            · exact hperm.mem_iff.mpr
                (List.mem_append.mpr (Or.inl (List.mem_filterMap.mpr ⟨b, hbdep, hnb⟩)))
            · rcases Relation.reflTransGen_iff_eq_or_transGen.mp hrtg with heq | htg
              · subst heq
                exact absurd hbdep ht
              · rw [getNode_id hnb]
                exact htg
          · exact ⟨m, hperm.mem_iff.mpr (List.mem_append.mpr (Or.inr hm')), hreach⟩

/-- Top-level `search_graph` correctness on an invariant-satisfying DAG: it
returns `found` or `notFound` (never panics or runs out of fuel), and returns
`found` exactly when `search_id` equals the root or is an ancestor of it. -/
lemma search_graph_spec {s : Merkle} (hInv : Inv s) (root t : NodeId) :
    (Merkle.search_graph s root t = .found ∨
      Merkle.search_graph s root t = .notFound) ∧
    (Merkle.search_graph s root t = .found ↔
      (root = t ∨ Reaches s.nodes root t)) := by
  unfold Merkle.search_graph
  by_cases hrt : root = t
  · rw [if_pos hrt]
    exact ⟨Or.inl rfl, ⟨fun _ => Or.inl hrt, fun _ => rfl⟩⟩
  · rw [if_neg hrt]
    cases hget : getNode s.nodes root with
    | none =>
      refine ⟨Or.inr rfl, ?_⟩
      constructor
      · intro h
        cases h
      · rintro (rfl | hre)
        · exact absurd rfl hrt
        · exfalso
          rcases Relation.TransGen.head'_iff.mp hre with ⟨b, ⟨n, hn, hid, _⟩, _⟩
          have hcont : containsNode s.nodes root = true := by
            rw [← hid]
            exact containsNode_of_mem hn
          obtain ⟨m, hm⟩ := getNode_some_of_contains hcont
          rw [hget] at hm
          cases hm
    | some root_node =>
      have hmem : root_node ∈ s.nodes := getNode_mem hget
      have hid : root_node.id = root := getNode_id hget
      have hw : stackWeight s.nodes [root_node] ≤ searchFuel s.nodes := by
        rw [stackWeight, List.map_cons, List.map_nil, List.sum_cons, List.sum_nil]
        show idWeight s.nodes root_node.id + 0 ≤ searchFuel s.nodes
        rw [Nat.add_zero]
        exact Nat.pow_le_pow_right (Nat.succ_pos _)
          (le_of_lt (rankOf_lt_length (containsNode_of_mem hmem)))
      obtain ⟨hor, hiff⟩ := searchLoop_spec hInv.idsNodup hInv.closed hInv.ranked
        (searchFuel s.nodes) [root_node] (by simpa using hmem) hw
      refine ⟨hor, hiff.trans ?_⟩
      constructor
      · rintro ⟨n, hn, h⟩
        have : n = root_node := by simpa using hn
        subst this
        exact Or.inr (hid ▸ h)
      · rintro (rfl | h)
        · exact absurd rfl hrt
        · exact ⟨root_node, by simp, hid.symm ▸ h⟩

/-! ### Claim C3 — correctness of `compare` -/

/-- **C3**: on every DAG reachable by `add_node` from empty, for all ids `x`
and `y`: `compare(x, y)` returns `Equivalent` iff `x = y`; it returns `Before`
only if `x` is an ancestor of `y` (reachable from `y` via dependency edges);
it returns `After` only if `y` is an ancestor of `x`; and it returns
`Uncomparable` only if neither is an ancestor of the other. -/
theorem compare_correct {H : HashWriter} {s : Merkle} (hre : Reachable H s)
    (x y : NodeId) :
    (Merkle.compare s x y = .ok .Equivalent ↔ x = y) ∧
    (Merkle.compare s x y = .ok .Before → Reaches s.nodes y x) ∧
    (Merkle.compare s x y = .ok .After → Reaches s.nodes x y) ∧
    (Merkle.compare s x y = .ok .Uncomparable →
      ¬ Reaches s.nodes y x ∧ ¬ Reaches s.nodes x y) := by
  have hInv := inv_of_reachable hre
  unfold Merkle.compare
  by_cases hxy : x = y
  · rw [if_pos hxy]
    refine ⟨⟨fun _ => hxy, fun _ => rfl⟩, ?_, ?_, ?_⟩ <;> intro h <;> cases h
  · rw [if_neg hxy]
    obtain ⟨hor1, hiff1⟩ := search_graph_spec hInv y x
    obtain ⟨hor2, hiff2⟩ := search_graph_spec hInv x y
    rcases hor1 with h1 | h1
    · rw [h1]
      dsimp only
      have hre1 : Reaches s.nodes y x := by
        rcases hiff1.mp h1 with heq | hr
        · exact absurd heq.symm hxy
        · exact hr
      exact ⟨⟨fun h => absurd h (by decide), fun h => absurd h hxy⟩,
        fun _ => hre1, fun h => absurd h (by decide), fun h => absurd h (by decide)⟩
    · rw [h1]
      dsimp only
      rcases hor2 with h2 | h2
      · rw [h2]
        dsimp only
        have hre2 : Reaches s.nodes x y := by
          rcases hiff2.mp h2 with heq | hr
          · exact absurd heq hxy
          · exact hr
        exact ⟨⟨fun h => absurd h (by decide), fun h => absurd h hxy⟩,
          fun h => absurd h (by decide), fun _ => hre2, fun h => absurd h (by decide)⟩
      · rw [h2]
        dsimp only
        refine ⟨⟨fun h => absurd h (by decide), fun h => absurd h hxy⟩,
          fun h => absurd h (by decide), fun h => absurd h (by decide),
          fun _ => ⟨?_, ?_⟩⟩
        · intro hr
          rw [hiff1.mpr (Or.inr hr)] at h1
          cases h1
        · intro hr
          rw [hiff2.mpr (Or.inr hr)] at h2
          cases h2

/-- Witness for C3 on the concrete chain DAG at the ids of leaf `A = [0, 5]`
and its parent `B = [0, 9, 0, 5]`. -/
theorem compare_correct_witness :
    (Merkle.compare sChain [0, 5] [0, 9, 0, 5] = .ok .Equivalent ↔
      ([0, 5] : NodeId) = [0, 9, 0, 5]) ∧
    (Merkle.compare sChain [0, 5] [0, 9, 0, 5] = .ok .Before →
      Reaches sChain.nodes [0, 9, 0, 5] [0, 5]) ∧
    (Merkle.compare sChain [0, 5] [0, 9, 0, 5] = .ok .After →
      Reaches sChain.nodes [0, 5] [0, 9, 0, 5]) ∧
    (Merkle.compare sChain [0, 5] [0, 9, 0, 5] = .ok .Uncomparable →
      ¬ Reaches sChain.nodes [0, 9, 0, 5] [0, 5] ∧
      ¬ Reaches sChain.nodes [0, 5] [0, 9, 0, 5]) :=
  compare_correct sChain_reachable [0, 5] [0, 9, 0, 5]

/-! ### `find_next_non_descendant_nodes` and the gap-fill iterator

`Merkle::find_next_non_descendant_nodes` (src/dag/mod.rs:169-199) walks down
from the DAG's roots; a node goes into the `ids` hit set when it is a leaf or
when one of its dependencies lies in the caller's `search_nodes`; descent
continues through the other dependencies.  The `.unwrap()` fetches panic when
an id is absent, embedded as the `panicked` outcome; the `while` loop gets the
same fuel treatment as `search_graph`. -/

/-- Outcome of the `find_next_non_descendant_nodes` traversal loop. -/
inductive FindResult where
  | ok (ids : Finset NodeId)
  | panicked
  | fuelOut
  deriving DecidableEq

/-- The `for dep in deps` loop body (src/dag/mod.rs:184-192): a dependency in
`search_nodes` records the current node id in `ids` (and is not descended
into); any other dependency is pushed on the stack. -/
def processDeps (search_nodes : Finset NodeId) (nid : NodeId) :
    List NodeId → List NodeId → Finset NodeId → List NodeId × Finset NodeId
  | [], stack, ids => (stack, ids)
  | dep :: rest, stack, ids =>
    if dep ∈ search_nodes then
      processDeps search_nodes nid rest stack (insert nid ids)
    else
      processDeps search_nodes nid rest (dep :: stack) ids

/-- The `while` loop of `find_next_non_descendant_nodes`
(src/dag/mod.rs:175-193), with explicit fuel: pop an id, fetch the node
(panicking if absent), record it when it is a leaf, then process its
dependency ids. -/
def findLoop (s : Merkle) (search_nodes : Finset NodeId) :
    Nat → List NodeId → Finset NodeId → FindResult
  | _, [], ids => .ok ids
  | 0, _ :: _, _ => .fuelOut
  | fuel + 1, node_id :: stack, ids =>
    match getNode s.nodes node_id with
    | none => .panicked
    | some node =>
      let deps := sortIds node.dependency_ids
      let ids1 := if deps = [] then insert node.id ids else ids
      match processDeps search_nodes node.id deps stack ids1 with
      | (stack2, ids2) => findLoop s search_nodes fuel stack2 ids2

/-- The result-building loop (src/dag/mod.rs:194-197): fetch every hit id,
panicking (`unwrap`) if one is absent. -/
def getAllNodes (nodes : List Node) : List NodeId → Option (List Node)
  | [] => some []
  | id :: rest =>
    match getNode nodes id, getAllNodes nodes rest with
    | some n, some ns => some (n :: ns)
    | _, _ => none

/-- Result of `Merkle::find_next_non_descendant_nodes`. -/
inductive FindNodesResult where
  | ok (result : List Node)
  | panicked
  | fuelOut
  deriving DecidableEq

/-- `Merkle::find_next_non_descendant_nodes` (src/dag/mod.rs:169-199).  The
stack starts as the root ids collected in ascending order; the Rust `Vec` pops
from its end, so the list-stack (head = top) is that order reversed. -/
def Merkle.find_next_non_descendant_nodes (s : Merkle)
    (search_nodes : Finset NodeId) : FindNodesResult :=
  match findLoop s search_nodes (searchFuel s.nodes) (sortIds s.roots).reverse ∅ with
  | .ok ids =>
    match getAllNodes s.nodes (sortIds ids) with
    | some result => .ok result
    | none => .panicked
  | .panicked => .panicked
  | .fuelOut => .fuelOut

/-- Result of `Missing::next_nodes`: `Ok(Some(nodes))`, `Ok(None)` (end of
sequence), or the propagated fatal outcomes. -/
inductive NextNodesResult where
  | yield (nodes : List Node)
  | done
  | panicked
  | fuelOut
  deriving DecidableEq

/-- `Missing::next_nodes` (src/dag/iter.rs:45-59): query the frontier for the
current `root_nodes` search set, replace `root_nodes` by the ids of the
returned batch, and yield the batch when it is non-empty (`Ok(None)` ends the
stream otherwise).  Returns the outcome together with the updated
`root_nodes`. -/
def Missing.next_nodes (s : Merkle) (root_nodes : Finset NodeId) :
    NextNodesResult × Finset NodeId :=
  match Merkle.find_next_non_descendant_nodes s root_nodes with
  | .ok nodes =>
    ((if 0 < nodes.length then .yield nodes else .done),
      (nodes.map Node.id).toFinset)
  | .panicked => (.panicked, root_nodes)
  | .fuelOut => (.fuelOut, root_nodes)

/-- The search set after `k` calls of `Missing::next_nodes` starting from
`init` (the iterator's internal `root_nodes` state). -/
def gapSearchAt (s : Merkle) (init : Finset NodeId) : Nat → Finset NodeId
  | 0 => init
  | k + 1 => (Missing.next_nodes s (gapSearchAt s init k)).2

lemma processDeps_spec (search : Finset NodeId) (nid : NodeId) :
    ∀ (deps stack : List NodeId) (ids : Finset NodeId),
      processDeps search nid deps stack ids =
        ((deps.filter fun d => decide (d ∉ search)).reverse ++ stack,
          if deps.any (fun d => decide (d ∈ search)) then insert nid ids else ids) := by
  intro deps
  induction deps with
  | nil => intro stack ids; simp [processDeps]
  | cons d rest ih =>
    intro stack ids
    by_cases hd : d ∈ search
    · rw [processDeps, if_pos hd, ih]
      have h1 : (List.filter (fun d => decide (d ∉ search)) (d :: rest)) =
          List.filter (fun d => decide (d ∉ search)) rest := by
        rw [List.filter_cons]
        simp [hd]
      by_cases hany : rest.any (fun d => decide (d ∈ search)) = true
      · simp [h1, hd, hany, Finset.insert_idem]
      · simp [h1, hd, hany]
    · rw [processDeps, if_neg hd, ih]
      have h1 : (List.filter (fun d => decide (d ∉ search)) (d :: rest)) =
          d :: List.filter (fun d => decide (d ∉ search)) rest := by
        rw [List.filter_cons]
        simp [hd]
      have h2 : (d :: rest).any (fun d => decide (d ∈ search)) =
          rest.any (fun d => decide (d ∈ search)) := by
        simp [List.any_cons, hd]
      rw [h1, h2, List.reverse_cons, List.append_assoc]
      rfl

lemma getAllNodes_some {nodes : List Node} : ∀ {l : List NodeId},
    (∀ x ∈ l, containsNode nodes x = true) →
    ∃ ns, getAllNodes nodes l = some ns ∧ ns.map Node.id = l := by
  intro l
  induction l with
  | nil => exact fun _ => ⟨[], rfl, rfl⟩
  | cons id rest ih =>
    intro hc
    obtain ⟨n, hn⟩ := getNode_some_of_contains (hc id (by simp))
    obtain ⟨ns, hns, hmap⟩ := ih fun x hx => hc x (by simp [hx])
    refine ⟨n :: ns, ?_, ?_⟩
    · rw [getAllNodes, hn, hns]
    · rw [List.map_cons, hmap, getNode_id hn]

/-- Weight bound for a duplicate-free stack of stored ids: at most the fuel
passed to the traversal loops. -/
lemma idListWeight_le_fuel {nodes : List Node} {l : List NodeId}
    (hnd : l.Nodup) (hc : ∀ x ∈ l, containsNode nodes x = true) :
    idListWeight nodes l ≤ searchFuel nodes := by
  cases hnodes : nodes with
  | nil =>
    cases l with
    | nil => simp [idListWeight, searchFuel]
    | cons x rest =>
      have := hc x (by simp)
      rw [hnodes] at this
      simp [containsNode, getNode] at this
  | cons n0 nrest =>
    rw [← hnodes]
    have hlen1 : 1 ≤ nodes.length := by rw [hnodes]; simp
    have hbound : ∀ x ∈ l.map (idWeight nodes),
        x ≤ (nodes.length + 1) ^ (nodes.length - 1) := by
      intro x hx
      rcases List.mem_map.mp hx with ⟨d, hd, rfl⟩
      have := rankOf_lt_length (hc d hd)
      exact Nat.pow_le_pow_right (Nat.succ_pos _) (by omega)
    have hsum := List.sum_le_card_nsmul _ _ hbound
    rw [List.length_map] at hsum
    have hlen : l.length ≤ nodes.length := by
      have hsub : l ⊆ nodes.map Node.id := by
        intro d hd
        rcases containsNode_iff.mp (hc d hd) with ⟨m, hm, hmid⟩
        exact List.mem_map.mpr ⟨m, hm, hmid⟩
      simpa using (hnd.subperm hsub).length_le
    calc idListWeight nodes l
        ≤ l.length • (nodes.length + 1) ^ (nodes.length - 1) := hsum
      _ = l.length * (nodes.length + 1) ^ (nodes.length - 1) := by rw [smul_eq_mul]
      _ ≤ (nodes.length + 1) * (nodes.length + 1) ^ (nodes.length - 1) :=
            Nat.mul_le_mul_right _ (by omega)
      _ = (nodes.length + 1) ^ (nodes.length - 1 + 1) := (pow_succ' _ _).symm
      _ = searchFuel nodes := by rw [searchFuel, Nat.sub_add_cancel hlen1]

/-- Main lemma for the `find_next_non_descendant_nodes` loop: with sufficient
fuel on an invariant DAG, the loop returns `ok` (never panics), its hit set
only grows, every hit is a stored id, and a non-empty stack guarantees a
non-empty hit set. -/
lemma findLoop_spec {s : Merkle} (hInv : Inv s) (search : Finset NodeId) :
    ∀ (fuel : Nat) (stack : List NodeId) (ids : Finset NodeId),
      (∀ x ∈ stack, containsNode s.nodes x = true) →
      idListWeight s.nodes stack ≤ fuel →
      ∃ ids2, findLoop s search fuel stack ids = .ok ids2 ∧
        ids ⊆ ids2 ∧
        (∀ x ∈ ids2, x ∈ ids ∨ containsNode s.nodes x = true) ∧
        (stack ≠ [] → ids2.Nonempty) := by
  intro fuel
  induction fuel with
  | zero =>
    intro stack ids hstack hw
    cases stack with
    | nil =>
      exact ⟨ids, rfl, Finset.Subset.refl _, fun x hx => Or.inl hx, fun h => absurd rfl h⟩
    | cons nid rest =>
      exfalso
      have hpos : 0 < idWeight s.nodes nid := pow_pos (Nat.succ_pos _) _
      have : 0 < idListWeight s.nodes (nid :: rest) := by
        rw [idListWeight, List.map_cons, List.sum_cons]
        omega
      omega
  | succ fuel ih =>
    intro stack ids hstack hw
    cases stack with
    | nil =>
      exact ⟨ids, rfl, Finset.Subset.refl _, fun x hx => Or.inl hx, fun h => absurd rfl h⟩
    | cons nid rest =>
      obtain ⟨node, hget⟩ := getNode_some_of_contains (hstack nid (by simp))
      have hnid : node.id = nid := getNode_id hget
      have hmem : node ∈ s.nodes := getNode_mem hget
      have hdepsres : ∀ d ∈ sortIds node.dependency_ids,
          containsNode s.nodes d = true :=
        fun d hd => hInv.closed node hmem d (mem_sortIds.mp hd)
      set deps := sortIds node.dependency_ids with hdepsdef
      set ids1 := if deps = [] then insert node.id ids else ids with hids1
      have hrun : findLoop s search (fuel + 1) (nid :: rest) ids =
          findLoop s search fuel
            ((deps.filter fun d => decide (d ∉ search)).reverse ++ rest)
            (if deps.any (fun d => decide (d ∈ search)) then insert node.id ids1
              else ids1) := by
        rw [hids1, hdepsdef]
        rw [findLoop, hget]
        dsimp only
        rw [processDeps_spec]
      set stack2 := (deps.filter fun d => decide (d ∉ search)).reverse ++ rest
        with hstack2
      set ids2 := (if deps.any (fun d => decide (d ∈ search)) then insert node.id ids1
        else ids1) with hids2
      have hstack2mem : ∀ x ∈ stack2, containsNode s.nodes x = true := by
        intro x hx
        rcases List.mem_append.mp hx with hx' | hx'
        · exact hdepsres x (List.mem_of_mem_filter (List.mem_reverse.mp hx'))
        · exact hstack x (by simp [hx'])
      have hw2 : idListWeight s.nodes stack2 ≤ fuel := by
        have hsubl : ((deps.filter fun d => decide (d ∉ search)).map
            (idWeight s.nodes)).Sublist (deps.map (idWeight s.nodes)) :=
          (List.filter_sublist _).map _
        have hfil : idListWeight s.nodes (deps.filter fun d => decide (d ∉ search)) ≤
            idListWeight s.nodes deps :=
          hsubl.sum_le_sum fun a _ => Nat.zero_le a
        have hlt : idListWeight s.nodes deps < idWeight s.nodes node.id :=
          depsWeight_lt hmem (hInv.closed node hmem) (hInv.ranked node hmem)
        have e1 : idListWeight s.nodes stack2 =
            idListWeight s.nodes (deps.filter fun d => decide (d ∉ search)) +
              idListWeight s.nodes rest := by
          rw [hstack2, idListWeight, List.map_append, List.sum_append,
            List.map_reverse, List.sum_reverse]
          rfl
        have e2 : idListWeight s.nodes (nid :: rest) =
            idWeight s.nodes nid + idListWeight s.nodes rest := by
          rw [idListWeight, List.map_cons, List.sum_cons]
          rfl
        rw [e2] at hw
        rw [hnid] at hlt
        omega
      obtain ⟨idsF, hrunF, hsubF, hmemF, hneF⟩ := ih stack2 ids2 hstack2mem hw2
      have hsub1 : ids ⊆ ids1 := by
        rw [hids1]
        by_cases hd : deps = []
        · rw [if_pos hd]
          exact Finset.subset_insert _ _
        · rw [if_neg hd]
      have hsub2 : ids1 ⊆ ids2 := by
        rw [hids2]
        by_cases ha : deps.any (fun d => decide (d ∈ search)) = true
        · rw [if_pos ha]
          exact Finset.subset_insert _ _
        · rw [if_neg ha]
      refine ⟨idsF, by rw [hrun]; exact hrunF,
        fun x hx => hsubF (hsub2 (hsub1 hx)), ?_, ?_⟩
      · intro x hx
        rcases hmemF x hx with hx' | hx'
        · rw [hids2] at hx'
          have hx1 : x ∈ ids1 ∨ x = node.id := by
            by_cases ha : deps.any (fun d => decide (d ∈ search)) = true
            · rw [if_pos ha] at hx'
              rcases Finset.mem_insert.mp hx' with h | h
              · exact Or.inr h
              · exact Or.inl h
            · rw [if_neg ha] at hx'
              exact Or.inl hx'
          rcases hx1 with hx1 | rfl
          · rw [hids1] at hx1
            by_cases hd : deps = []
            · rw [if_pos hd] at hx1
              rcases Finset.mem_insert.mp hx1 with h | h
              · exact Or.inr (h ▸ containsNode_of_mem hmem)
              · exact Or.inl h
            · rw [if_neg hd] at hx1
              exact Or.inl hx1
          · exact Or.inr (containsNode_of_mem hmem)
        · exact Or.inr hx'
      · intro _
        by_cases hd : deps = []
        · refine Finset.Nonempty.mono hsubF ?_
          refine Finset.Nonempty.mono hsub2 ?_
          rw [hids1, if_pos hd]
          exact Finset.insert_nonempty _ _
        · by_cases hfil : (deps.filter fun d => decide (d ∉ search)) = []
          · have hany : deps.any (fun d => decide (d ∈ search)) = true := by
              obtain ⟨d0, hd0⟩ := List.exists_mem_of_ne_nil _ hd
              have := List.filter_eq_nil_iff.mp hfil d0 hd0
              simp only [decide_eq_true_eq] at this
              rw [List.any_eq_true]
              refine ⟨d0, hd0, ?_⟩
              simp only [decide_eq_true_eq]
              by_contra hc
              exact this hc
            refine Finset.Nonempty.mono hsubF ?_
            rw [hids2, if_pos hany]
            exact Finset.insert_nonempty _ _
          · apply hneF
            rw [hstack2]
            intro happ
            rcases List.append_eq_nil.mp happ with ⟨hrev, _⟩
            exact hfil (by simpa using congrArg List.reverse hrev)

/-- `find_next_non_descendant_nodes` on an invariant DAG always returns `ok`
(no panic, no fuel exhaustion), and on a non-empty DAG the returned batch is
never empty (every root-to-leaf walk deposits at least one node in the hit
set: a leaf, or a parent of the search set). -/
lemma find_next_spec {s : Merkle} (hInv : Inv s) (search : Finset NodeId) :
    ∃ ns, Merkle.find_next_non_descendant_nodes s search = .ok ns ∧
      (s.nodes ≠ [] → ns ≠ []) := by
  have hstackmem : ∀ x ∈ (sortIds s.roots).reverse, containsNode s.nodes x = true :=
    fun x hx => hInv.rootsMem x (mem_sortIds.mp (List.mem_reverse.mp hx))
  have hnd : ((sortIds s.roots).reverse).Nodup :=
    List.nodup_reverse.mpr (sortIds_nodup _)
  have hw := idListWeight_le_fuel hnd hstackmem
  obtain ⟨ids2, hrun, _, hmem2, hne2⟩ :=
    findLoop_spec hInv search (searchFuel s.nodes) ((sortIds s.roots).reverse) ∅
      hstackmem hw
  have hidsc : ∀ x ∈ sortIds ids2, containsNode s.nodes x = true := by
    intro x hx
    rcases hmem2 x (mem_sortIds.mp hx) with h | h
    · exact absurd h (Finset.not_mem_empty x)
    · exact h
  obtain ⟨ns, hns, hnsmap⟩ := getAllNodes_some hidsc
  refine ⟨ns, ?_, ?_⟩
  · rw [Merkle.find_next_non_descendant_nodes, hrun]
    dsimp only
    rw [hns]
  · intro hnodes
    obtain ⟨r, hr⟩ := hInv.rootsNe hnodes
    have hstackne : (sortIds s.roots).reverse ≠ [] := by
      intro h
      have hrmem : r ∈ (sortIds s.roots).reverse :=
        List.mem_reverse.mpr (mem_sortIds.mpr hr)
      rw [h] at hrmem
      cases hrmem
    obtain ⟨x, hx⟩ := hne2 hstackne
    intro hns0
    have h0 : sortIds ids2 = [] := by
      rw [hns0] at hnsmap
      simpa using hnsmap.symm
    have hxs : x ∈ sortIds ids2 := mem_sortIds.mpr hx
    rw [h0] at hxs
    cases hxs

/-! ### Claim C8 — traversal safety under closure -/

/-- **C8**: on every DAG reachable by `add_node` from empty, the fatal
missing-dependency branches are unreachable: `compare` always returns an
ordinary `NodeCompare` (its graph search neither panics nor exhausts the
fuel), and `find_next_non_descendant_nodes` always returns an ordinary node
list (none of its `unwrap` fetches fails). -/
theorem traversal_never_fatal {H : HashWriter} {s : Merkle} (hre : Reachable H s) :
    (∀ x y, ∃ c, Merkle.compare s x y = .ok c) ∧
    (∀ search, ∃ ns, Merkle.find_next_non_descendant_nodes s search = .ok ns) := by
  have hInv := inv_of_reachable hre
  constructor
  · intro x y
    unfold Merkle.compare
    by_cases hxy : x = y
    · rw [if_pos hxy]
      exact ⟨.Equivalent, rfl⟩
    · rw [if_neg hxy]
      obtain ⟨hor1, _⟩ := search_graph_spec hInv y x
      obtain ⟨hor2, _⟩ := search_graph_spec hInv x y
      rcases hor1 with h1 | h1
      · rw [h1]
        exact ⟨.Before, rfl⟩
      · rw [h1]
        dsimp only
        rcases hor2 with h2 | h2
        · rw [h2]
          exact ⟨.After, rfl⟩
        · rw [h2]
          exact ⟨.Uncomparable, rfl⟩
  · intro search
    obtain ⟨ns, hns, _⟩ := find_next_spec hInv search
    exact ⟨ns, hns⟩

/-- Witness for C8 on the concrete chain DAG. -/
theorem traversal_never_fatal_witness :
    (∀ x y, ∃ c, Merkle.compare sChain x y = .ok c) ∧
    (∀ search, ∃ ns, Merkle.find_next_non_descendant_nodes sChain search = .ok ns) :=
  traversal_never_fatal sChain_reachable

/-! ### Claim C6 — the single-step diff scenario

The first half of the scenario holds: on the chain DAG (leaf `A = [0, 5]`,
parent `B = [0, 9, 0, 5]` depending on `A`),
`find_next_non_descendant_nodes({A})` returns exactly `[B]`.  The second half
fails on the code: `find_next_non_descendant_nodes({B})` does not return the
empty set.  The traversal starts at the root `B`, whose id is never tested
against the search set (only dependency ids are), descends through `A ∉ {B}`
and reaches the leaf `A`, which the leaf rule unconditionally inserts into the
hit set; the call returns `[A]`. -/

/-- **C6 counterexample**: the follow-up call with `{B.id}` on the A→B chain
DAG does not return the empty set (it returns the leaf `A`). -/
theorem single_step_diff_counterexample :
    Merkle.find_next_non_descendant_nodes sChain {[0, 9, 0, 5]} ≠ .ok [] := by
  rw [show Merkle.find_next_non_descendant_nodes sChain {[0, 9, 0, 5]} =
      .ok [Node.new consHash [5] ∅] from rfl]
  intro h
  cases FindNodesResult.ok.inj h

/-- **C6 amended**: on the chain DAG, `find_next_non_descendant_nodes({A.id})`
returns exactly the node set `{B}`, and the follow-up call with `{B.id}`
returns exactly the leaf node set `{A}` (not the empty set: the leaf rule
inserts `A` unconditionally). -/
theorem single_step_diff_amended :
    Merkle.find_next_non_descendant_nodes sChain {[0, 5]} =
      .ok [Node.new consHash [9] {[0, 5]}] ∧
    Merkle.find_next_non_descendant_nodes sChain {[0, 9, 0, 5]} =
      .ok [Node.new consHash [5] ∅] :=
  ⟨rfl, rfl⟩

/-! ### Claim C7 — gap-fill iterator termination

The claim fails on the code: on every *non-empty* DAG, every call of
`find_next_non_descendant_nodes` returns a non-empty batch — a traversal that
never meets the search set deposits a leaf, and one that meets it deposits the
parent node — so `next_nodes` never signals end-of-sequence and the iterator
never terminates.  On the two-node chain the search set even cycles with
period two: `{A} ↦ {B} ↦ {A} ↦ …`. -/

lemma sChain_nodes_ne : sChain.nodes ≠ [] := by
  rw [show sChain.nodes =
      [Node.new consHash [5] ∅, Node.new consHash [9] {[0, 5]}] from rfl]
  simp

/-- **C7 counterexample**: on the chain DAG (built by `add_node` from empty)
with initial search set `{A.id}`, no number of `next_nodes` calls ever
reaches an empty result: the iterator never signals end-of-sequence. -/
theorem gap_fill_termination_counterexample :
    ¬ ∃ k, (Missing.next_nodes sChain (gapSearchAt sChain {[0, 5]} k)).1 = .done := by
  have key : ∀ k, gapSearchAt sChain {[0, 5]} k = {[0, 5]} ∨
      gapSearchAt sChain {[0, 5]} k = {[0, 9, 0, 5]} := by
    intro k
    induction k with
    | zero => exact Or.inl rfl
    | succ k ih =>
      rcases ih with h | h
      · refine Or.inr ?_
        show (Missing.next_nodes sChain (gapSearchAt sChain {[0, 5]} k)).2 = _
        rw [h]
        rfl
      · refine Or.inl ?_
        show (Missing.next_nodes sChain (gapSearchAt sChain {[0, 5]} k)).2 = _
        rw [h]
        rfl
  rintro ⟨k, hk⟩
  rcases key k with h | h <;> rw [h] at hk
  · rw [show (Missing.next_nodes sChain {[0, 5]}).1 =
        .yield [Node.new consHash [9] {[0, 5]}] from rfl] at hk
    cases hk
  · rw [show (Missing.next_nodes sChain {[0, 9, 0, 5]}).1 =
        .yield [Node.new consHash [5] ∅] from rfl] at hk
    cases hk

/-- **C7 amended**: the gap-fill iterator reaches an empty result only on the
empty DAG.  On every DAG reachable by `add_node` that stores at least one
node, every `next_nodes` call — whatever the current search set — yields a
non-empty batch, so the iteration never terminates. -/
theorem gap_fill_yields_nonempty {H : HashWriter} {s : Merkle} (hre : Reachable H s)
    (hne : s.nodes ≠ []) (root_nodes : Finset NodeId) :
    ∃ ns, (Missing.next_nodes s root_nodes).1 = .yield ns ∧ ns ≠ [] := by
  have hInv := inv_of_reachable hre
  obtain ⟨ns, hns, hnsne⟩ := find_next_spec hInv root_nodes
  have hne2 := hnsne hne
  refine ⟨ns, ?_, hne2⟩
  rw [Missing.next_nodes, hns]
  dsimp only
  rw [if_pos (List.length_pos.mpr hne2)]

/-- Witness for the amended C7 on the chain DAG with search set `{A.id}`. -/
theorem gap_fill_yields_nonempty_witness :
    ∃ ns, (Missing.next_nodes sChain {[0, 5]}).1 = .yield ns ∧ ns ≠ [] :=
  gap_fill_yields_nonempty sChain_reachable sChain_nodes_ne {[0, 5]}

/-! ### The node codec (src/node.rs)

`impl Serialize` (src/node.rs:67-83) writes only `item` and `dependency_ids`
(the latter as the set of raw byte slices, iterated in ascending order).
`impl Deserialize` (src/node.rs:111-192) reads those two fields, coerces each
slice back to a `[u8; HASH_LEN]` via `coerce_const_generic_array`
(src/node.rs:85-99) and re-invokes `Node::new`; the derived `id` and `item_id`
are never read from the bytes.  `coerce_const_generic_array` returns an error
when the slice is longer than `HASH_LEN`; otherwise it calls
`slice::copy_from_slice`, whose contract requires equal lengths — a shorter
slice therefore panics, embedded as the `panicked` outcome. -/

/-- The byte-level content of a serialized node: the `item` payload and the
dependency-id byte sequences in ascending order. -/
def serializeNode (n : Node) : List Nat × List NodeId :=
  (n.item, sortIds n.dependency_ids)

/-- Outcome of `coerce_const_generic_array` (src/node.rs:85-99). -/
inductive CoerceArrayResult where
  | ok (a : NodeId)
  | err
  | panicked
  deriving DecidableEq

/-- `coerce_const_generic_array` (src/node.rs:85-99): a slice longer than
`HASH_LEN` is rejected with the length-mismatch error; a slice of exactly
`HASH_LEN` bytes is copied through (`copy_from_slice`); a shorter slice
reaches `copy_from_slice` with mismatched lengths, which panics. -/
def coerce_const_generic_array (hashLen : Nat) (slice : NodeId) : CoerceArrayResult :=
  if slice.length > hashLen then .err
  else if slice.length = hashLen then .ok slice
  else .panicked

/-- Outcome of `coerce_const_generic_set` (src/node.rs:101-109). -/
inductive CoerceSetResult where
  | ok (s : Finset NodeId)
  | err
  | panicked
  deriving DecidableEq

/-- `coerce_const_generic_set` (src/node.rs:101-109): coerce each slice,
propagating the first error or panic. -/
def coerce_const_generic_set (hashLen : Nat) : List NodeId → CoerceSetResult
  | [] => .ok ∅
  | slice :: rest =>
    match coerce_const_generic_array hashLen slice with
    | .ok a =>
      match coerce_const_generic_set hashLen rest with
      | .ok s => .ok (insert a s)
      | .err => .err
      | .panicked => .panicked
    | .err => .err
    | .panicked => .panicked

/-- Outcome of node deserialization. -/
inductive DeserializeResult where
  | ok (n : Node)
  | err
  | panicked
  deriving DecidableEq

/-- Node deserialization (the `visit_seq` / `visit_map` paths of
`impl Deserialize for Node`, src/node.rs:139-186): take the decoded `item`
bytes and dependency-id slices, coerce the slices, and re-invoke `Node::new`
— only these two fields are read, the derived ids are recomputed. -/
def deserializeNode (H : HashWriter) (hashLen : Nat)
    (data : List Nat × List NodeId) : DeserializeResult :=
  match coerce_const_generic_set hashLen data.2 with
  | .ok deps => .ok (Node.new H data.1 deps)
  | .err => .err
  | .panicked => .panicked

lemma coerce_set_ok {hashLen : Nat} : ∀ {l : List NodeId},
    (∀ d ∈ l, d.length = hashLen) →
    coerce_const_generic_set hashLen l = .ok l.toFinset := by
  intro l
  induction l with
  | nil => intro _; rfl
  | cons d rest ih =>
    intro h
    have hd : coerce_const_generic_array hashLen d = .ok d := by
      unfold coerce_const_generic_array
      rw [if_neg (by have := h d (by simp); omega), if_pos (h d (by simp))]
    rw [coerce_const_generic_set, hd, ih fun x hx => h x (by simp [hx]),
      List.toFinset_cons]

/-! ### Claim C9 — codec round-trip -/

/-- **C9**: for every node constructed from a payload and a dependency set of
correct-length ids, serializing and deserializing yields a node whose `id`,
`item_id`, `item` and `dependency_ids` all equal those of the original.  Only
`item` and `dependency_ids` travel through the bytes (`serializeNode` carries
nothing else), and `deserializeNode` recomputes the two derived ids by
re-invoking the constructor. -/
theorem node_codec_roundtrip (H : HashWriter) (hashLen : Nat) (p : List Nat)
    (D : Finset NodeId) (hlen : ∀ d ∈ D, d.length = hashLen) :
    ∃ n2, deserializeNode H hashLen (serializeNode (Node.new H p D)) = .ok n2 ∧
      n2.id = (Node.new H p D).id ∧
      n2.item_id = (Node.new H p D).item_id ∧
      n2.item = (Node.new H p D).item ∧
      n2.dependency_ids = (Node.new H p D).dependency_ids := by
  have hser : serializeNode (Node.new H p D) = (p, sortIds D) := rfl
  have hcoerce : coerce_const_generic_set hashLen (sortIds D) = .ok D := by
    rw [coerce_set_ok fun d hd => hlen d (mem_sortIds.mp hd), toFinset_sortIds]
  refine ⟨Node.new H p D, ?_, rfl, rfl, rfl, rfl⟩
  rw [hser, deserializeNode]
  dsimp only
  rw [hcoerce]

/-- Witness for C9 at a concrete node (payload `[7]`, dependency set
`{[1, 2], [3, 4]}`, `HASH_LEN = 2`). -/
theorem node_codec_roundtrip_witness :
    ∃ n2, deserializeNode consHash 2
        (serializeNode (Node.new consHash [7] {[1, 2], [3, 4]})) = .ok n2 ∧
      n2.id = (Node.new consHash [7] {[1, 2], [3, 4]}).id ∧
      n2.item_id = (Node.new consHash [7] {[1, 2], [3, 4]}).item_id ∧
      n2.item = (Node.new consHash [7] {[1, 2], [3, 4]}).item ∧
      n2.dependency_ids = (Node.new consHash [7] {[1, 2], [3, 4]}).dependency_ids :=
  node_codec_roundtrip consHash 2 [7] {[1, 2], [3, 4]} (by decide)

/-! ### Claim C10 — deserialization totality at the public interface

The claim does not hold of the code, and here the code, not the claim, is at
fault: `coerce_const_generic_array`'s guard only rejects slices *longer* than
`HASH_LEN` (src/node.rs:89), yet its error message reports a generic length
mismatch, and the serde `Deserialize` contract the surrounding code follows
(every other failure is routed through `serde::de::Error`) requires malformed
input to produce an `Err`, not a process abort.  A dependency-id slice
*shorter* than `HASH_LEN` falls through to `copy_from_slice`, whose contract
demands equal lengths, and panics. -/

/-- **C10**: evaluation of the length coercion at the failing input.  A
7-byte slice under `HASH_LEN = 8` panics in `copy_from_slice` instead of
returning the deserialization error (which a 9-byte slice does receive), and
the panic surfaces through node deserialization. -/
theorem coerce_short_slice_panics :
    coerce_const_generic_array 8 [0, 0, 0, 0, 0, 0, 0] = .panicked ∧
    coerce_const_generic_array 8 [0, 0, 0, 0, 0, 0, 0, 0, 0] = .err ∧
    deserializeNode consHash 8 ([1], [[0, 0, 0, 0, 0, 0, 0]]) = .panicked :=
  ⟨by decide, by decide, by decide⟩

end MerkleDag
